import Mathlib

/-!
Verification development for the goutils toolkit: shallow embeddings of the
textutil variable expander, the color formatter, and the terminal spinner,
together with proofs of the specified properties.

Go strings and byte slices are modelled as `List Char`, one element per byte
(every comparison the code performs is bytewise, and `string([]byte)` in Go is
a bytewise identity). Go `int` values that the code compares or that can be
negative (`count`, `completed`, `maxMsgLen`) are modelled as `Int`. Code paths
that panic at runtime (out-of-range indexing or slicing) are modelled by
returning `none`.
-/

abbrev Str := List Char

namespace Textutil

/-- Go slice expression `src[a:b]`. -/
def slice (l : Str) (a b : Nat) : Str := (l.take b).drop a

/-- Inner scan of `ExpandVariables`: index of the first closing brace at or
after position `st` (the `for j := varStart; ...` loop). -/
def findClose (src : Str) (st : Nat) : Option Nat :=
  ((src.drop st).findIdx? (fun c => c == '\x7d')).map (fun j => j + st)

/-- The `for i := 0; i < len(src); i++` loop of `ExpandVariables`, transcribed
with an explicit fuel argument (the loop index `i` strictly increases each
iteration, so `src.length + 1` fuel always suffices). `ed` is the Go variable
`end` and `buf` is the lazily allocated output buffer (Go `nil` = `none`). -/
def expandLoop (src : Str) (mapping : Str → Str) : Nat → Nat → Nat → Option Str → Str
  | 0, _, ed, buf =>
    match buf with
    | none => src
    | some b => b ++ src.drop ed
  | fuel+1, i, ed, buf =>
    if src.length < i + 2 then
      match buf with
      | none => src
      | some b => b ++ src.drop ed
    else if !(src[i]? == some '$' && src[i+1]? == some '\x7b') then
      expandLoop src mapping fuel (i+1) ed buf
    else
      let b1 := (match buf with | none => [] | some b => b) ++ slice src ed i
      match findClose src (i+2) with
      | none => expandLoop src mapping fuel (i+2) ed (some b1)
      | some varEnd =>
        if varEnd = i + 2 then expandLoop src mapping fuel (i+3) ed (some b1)
        else
          let name := slice src (i+2) varEnd
          expandLoop src mapping fuel (varEnd+1) (varEnd+1) (some (b1 ++ mapping name))

/-- `textutil.ExpandVariables`: replaces each well-formed occurrence of a
dollar-brace variable in the byte slice using the mapping function. -/
def ExpandVariables (src : Str) (mapping : Str → Str) : Str :=
  expandLoop src mapping (src.length + 1) 0 0 none

/-- Inner scan of `ExpandVariablesString` (identical byte-wise scan). -/
def findCloseS (src : Str) (st : Nat) : Option Nat :=
  ((src.drop st).findIdx? (fun c => c == '\x7d')).map (fun j => j + st)

/-- The loop of `ExpandVariablesString`, transcribed the same way; `buf` models
the lazily allocated `strings.Builder` (Go `nil` pointer = `none`). -/
def expandLoopS (src : Str) (mapping : Str → Str) : Nat → Nat → Nat → Option Str → Str
  | 0, _, ed, buf =>
    match buf with
    | none => src
    | some b => b ++ src.drop ed
  | fuel+1, i, ed, buf =>
    if src.length < i + 2 then
      match buf with
      | none => src
      | some b => b ++ src.drop ed
    else if !(src[i]? == some '$' && src[i+1]? == some '\x7b') then
      expandLoopS src mapping fuel (i+1) ed buf
    else
      let b1 := (match buf with | none => [] | some b => b) ++ slice src ed i
      match findCloseS src (i+2) with
      | none => expandLoopS src mapping fuel (i+2) ed (some b1)
      | some varEnd =>
        if varEnd = i + 2 then expandLoopS src mapping fuel (i+3) ed (some b1)
        else
          let name := slice src (i+2) varEnd
          expandLoopS src mapping fuel (varEnd+1) (varEnd+1) (some (b1 ++ mapping name))

/-- `textutil.ExpandVariablesString`: the string counterpart. -/
def ExpandVariablesString (src : Str) (mapping : Str → Str) : Str :=
  expandLoopS src mapping (src.length + 1) 0 0 none

end Textutil

namespace Color

/-- Package-level mutable state of the color package: the `noColor` flag set
once by `init` from the environment, and the `enabled` flag. -/
structure ColorState where
  noColor : Bool
  enabled : Bool
  deriving DecidableEq

/-- The package `init` function: `noColor` records whether the `NO_COLOR`
environment variable was set, and `enabled = !noColor`. -/
def initColor (noColorEnv : Bool) : ColorState :=
  { noColor := noColorEnv, enabled := !noColorEnv }

def fgBlack : Nat := 30
def fgRed : Nat := 31
def fgGreen : Nat := 32
def fgYellow : Nat := 33
def fgBlue : Nat := 34
def fgMagenta : Nat := 35
def fgCyan : Nat := 36
def fgWhite : Nat := 37
def fgReset : Nat := 39

/-- The byte sequence produced by `fmt.Sprintf("\x1b[%dm", code)`. -/
def ansiSeq (code : Nat) : Str := '\x1b' :: '[' :: (Nat.repr code).toList ++ ['m']

/-- Bytewise prefix test (used to model the literal-substring regex match). -/
def leadsWith : Str → Str → Bool
  | [], _ => true
  | _ :: _, [] => false
  | a :: as, b :: bs => a == b && leadsWith as bs

/-- Leftmost non-overlapping removal of every occurrence of `pat`, modelling
`regexp.ReplaceAllString(s, "")` for the literal reset-sequence pattern
(fuel-indexed; `text.length` fuel suffices since a match consumes at least
one element). -/
def removeAll (pat : Str) : Nat → Str → Str
  | 0, t => t
  | _+1, [] => []
  | fuel+1, c :: rest =>
    if pat ≠ [] ∧ leadsWith pat (c :: rest) then
      removeAll pat fuel ((c :: rest).drop pat.length)
    else c :: removeAll pat fuel rest

/-- `color.SetEnabled`: a no-op when `NO_COLOR` was set. -/
def SetEnabled (st : ColorState) (e : Bool) : ColorState :=
  if st.noColor then st else { st with enabled := e }

/-- `color.apply`: returns `s` unchanged when colors are disabled, otherwise
strips embedded reset sequences and wraps `s` in start/reset codes. -/
def apply (st : ColorState) (s : Str) (startC fin : Nat) : Str :=
  if !st.enabled then s
  else ansiSeq startC ++ removeAll (ansiSeq fin) s.length s ++ ansiSeq fin

def Black (st : ColorState) (s : Str) : Str := apply st s fgBlack fgReset
def Red (st : ColorState) (s : Str) : Str := apply st s fgRed fgReset
def Green (st : ColorState) (s : Str) : Str := apply st s fgGreen fgReset
def Yellow (st : ColorState) (s : Str) : Str := apply st s fgYellow fgReset
def Blue (st : ColorState) (s : Str) : Str := apply st s fgBlue fgReset
def Magenta (st : ColorState) (s : Str) : Str := apply st s fgMagenta fgReset
def Cyan (st : ColorState) (s : Str) : Str := apply st s fgCyan fgReset
def White (st : ColorState) (s : Str) : Str := apply st s fgWhite fgReset

/-- The package state after `init` observed `NO_COLOR` and an arbitrary
subsequent sequence of `SetEnabled` calls. -/
def afterSetEnabled (es : List Bool) : ColorState :=
  es.foldl SetEnabled (initColor true)

end Color

/-- State of one spinner instance. The canonical (debug-writer capable) source
version is embedded. Writer identities are abstracted: `out` is the sequence of
chunks written to the output writer `w`, `debugOut` the sequence of chunks
written to the debug writer, and `hasDebugw` records whether a debug writer
was configured (`s.debugw != nil`). The `stopChan` send and the background
`run` goroutine are lifecycle machinery with no effect on the foreground state
transition and are not part of the state. -/
structure Spinner where
  interval : Nat
  active : Bool
  lastOutput : Str
  startMsg : Str
  stopMsg : Str
  msg : Str
  count : Int
  completed : Int
  maxMsgLen : Int
  debugMsgs : List Str
  hasDebugw : Bool
  out : List Str
  debugOut : List Str
  deriving DecidableEq

namespace Spinner

/-- The spinner value built by `New` before options are applied. -/
def mk0 : Spinner :=
  { interval := 100, active := false, lastOutput := [], startMsg := [],
    stopMsg := [], msg := [], count := 1, completed := 0, maxMsgLen := 80,
    debugMsgs := [], hasDebugw := false, out := [], debugOut := [] }

/-- The seven configuration options of the spinner package. -/
inductive Opt
  | withInterval (d : Nat)
  | withWriter
  | withDebugWriter
  | withStartMessage (m : Str)
  | withStopMessage (m : Str)
  | withCount (c : Int)
  | withMaxMessageLength (l : Int)

def applyOpt (s : Spinner) : Opt → Spinner
  | .withInterval d => { s with interval := d }
  | .withWriter => s
  | .withDebugWriter => { s with hasDebugw := true }
  | .withStartMessage m => { s with startMsg := m }
  | .withStopMessage m => { s with stopMsg := m }
  | .withCount c => { s with count := c }
  | .withMaxMessageLength l => { s with maxMsgLen := l }

/-- `spinner.New`: applies each option in order to the default value. -/
def New (opts : List Opt) : Spinner := opts.foldl applyOpt mk0

/-- The newline-stripping step of `setMsg`: drop a single trailing newline. -/
def stripNL (m : Str) : Str :=
  if m.getLast? = some '\n' then m.dropLast else m

/-- Tail of `setMsg` after truncation: the leading-space padding, history push
of the previous message, and store. Indexing `m2[0]` on an empty `m2` is the
panic modelled by `none`. -/
def setMsgStore (s : Spinner) (m2 : Str) : Option Spinner :=
  match m2 with
  | [] => none
  | c :: _ =>
    let m3 := if c = ' ' then m2 else ' ' :: m2
    some { s with
           msg := m3
           debugMsgs := (if s.msg = [] then s.debugMsgs
                         else s.debugMsgs ++ [s.msg.tail]) }

/-- `Spinner.setMsg`: no-op on the empty message, strip one trailing newline,
truncate past `maxMsgLen` (the slice `m[:maxMsgLen]` panics when `maxMsgLen`
is negative), then pad and store via `setMsgStore`. -/
def setMsg (s : Spinner) (m : Str) : Option Spinner :=
  if m = [] then some s
  else
    let m1 := stripNL m
    if (m1.length : Int) > s.maxMsgLen then
      if s.maxMsgLen < 0 then none
      else setMsgStore s (m1.take s.maxMsgLen.toNat ++ ['.', '.', '.'])
    else setMsgStore s m1

/-- The per-element repetition `strings.Repeat(c, n)`. -/
def rep (c : Str) (n : Nat) : Str := (List.replicate n c).flatten

/-- The five chunks `erase` writes to the output writer on a non-Windows
platform for a last output of `n` runes (the second chunk is the Go literal
containing the octal escape for 0x57, the third backspaces again, then
ANSI erase-to-end-of-line sequences). -/
def eraseSeq (n : Nat) : List Str :=
  [rep ['\x08'] n, rep ['\x57'] n, rep ['\x08'] n,
   rep ['\x1b', '[', 'K'] n, ['\x0d', '\x1b', '[', 'K']]

/-- `Spinner.erase` (non-Windows branch): write the erase chunks, then flush
every pending debug message (newline-terminated, via `Fprintln`) to the debug
writer when one is configured, and reset `lastOutput`. -/
def erase (s : Spinner) : Spinner :=
  let n := s.lastOutput.length
  let s1 := { s with out := s.out ++ eraseSeq n }
  let s2 :=
    if s1.hasDebugw then
      { s1 with
        debugOut := s1.debugOut ++ s1.debugMsgs.map (fun m => m ++ ['\n'])
        debugMsgs := [] }
    else s1
  { s2 with lastOutput := [] }

/-- `Spinner.Start` (foreground transition): no-op when already active,
otherwise mark active and apply the start message. The launch of the
background `run` goroutine has no effect on the foreground state. -/
def Start (s : Spinner) : Option Spinner :=
  if s.active then some s
  else setMsg { s with active := true } s.startMsg

/-- `Spinner.Stop`: no-op when inactive, otherwise deactivate, push the
current message onto the pending debug messages, erase, and write the stop
message (with a guaranteed trailing newline) when one was configured. -/
def Stop (s : Spinner) : Spinner :=
  if !s.active then s
  else
    let s1 := { s with active := false }
    let s2 := if s1.msg = [] then s1
              else { s1 with debugMsgs := s1.debugMsgs ++ [s1.msg.tail] }
    let s3 := erase s2
    if s3.stopMsg = [] then s3
    else
      let sm := if s3.stopMsg.getLast? = some '\n' then s3.stopMsg
                else s3.stopMsg ++ ['\n']
      { s3 with stopMsg := sm, out := s3.out ++ [sm] }

/-- `Spinner.IncWithMessage`: no-op once `completed >= count`, otherwise
increment and apply the message. -/
def IncWithMessage (s : Spinner) (m : Str) : Option Spinner :=
  if s.completed ≥ s.count then some s
  else setMsg { s with completed := s.completed + 1 } m

/-- `Spinner.Inc` delegates to `IncWithMessage` with the empty message. -/
def Inc (s : Spinner) : Option Spinner := IncWithMessage s []

/-- `Spinner.Debugf` with the already-formatted message: no-op without a debug
writer, otherwise append to the pending debug messages. -/
def Debugf (s : Spinner) (m : Str) : Spinner :=
  if !s.hasDebugw then s else { s with debugMsgs := s.debugMsgs ++ [m] }

/-- The public foreground operations of the spinner. -/
inductive Op
  | start
  | stop
  | inc
  | incWithMessage (m : Str)
  | debugf (m : Str)

def runOp (s : Spinner) : Op → Option Spinner
  | .start => Start s
  | .stop => some (Stop s)
  | .inc => Inc s
  | .incWithMessage m => IncWithMessage s m
  | .debugf m => some (Debugf s m)

/-- Run a sequence of foreground operations; `none` when any of them panics. -/
def runOps : Spinner → List Op → Option Spinner
  | s, [] => some s
  | s, op :: rest => (runOp s op).bind (fun s1 => runOps s1 rest)

/-- Run a sequence of `IncWithMessage` calls (an `Inc()` call is the empty
message). -/
def runIncs : Spinner → List Str → Option Spinner
  | s, [] => some s
  | s, m :: rest => (IncWithMessage s m).bind (fun s1 => runIncs s1 rest)

/-- The specified leading-space discipline, for stating the padding claims. -/
def pad (m : Str) : Str := if m.head? = some ' ' then m else ' ' :: m

/-- The specified message invariant: empty or exactly one leading space. -/
def msgOk (s : Spinner) : Prop := s.msg = [] ∨ s.msg.head? = some ' '

end Spinner

section Lemmas

open Textutil Color Spinner

/-- Fields that `setMsgStore` never touches, and the leading space of the
stored message. -/
theorem setMsgStore_spec {s s' : Spinner} {m2 : Str} (h : setMsgStore s m2 = some s') :
    s'.completed = s.completed ∧ s'.count = s.count ∧ s'.active = s.active ∧
    s'.out = s.out ∧ s'.debugOut = s.debugOut ∧ s'.msg.head? = some ' ' := by
  cases m2 with
  | nil => simp [setMsgStore] at h
  | cons c r =>
    simp only [setMsgStore, Option.some.injEq] at h
    subst h
    refine ⟨rfl, rfl, rfl, rfl, rfl, ?_⟩
    by_cases hc : c = ' ' <;> simp [hc]

/-- Fields that `setMsg` never touches; the stored message is either unchanged
or starts with a space. -/
theorem setMsg_spec {s s' : Spinner} {m : Str} (h : setMsg s m = some s') :
    s'.completed = s.completed ∧ s'.count = s.count ∧ s'.active = s.active ∧
    s'.out = s.out ∧ s'.debugOut = s.debugOut ∧
    (s'.msg = s.msg ∨ s'.msg.head? = some ' ') := by
  simp only [setMsg] at h
  split at h
  · simp only [Option.some.injEq] at h
    subst h
    exact ⟨rfl, rfl, rfl, rfl, rfl, Or.inl rfl⟩
  · split at h
    · split at h
      · exact absurd h (by simp)
      · have hs := setMsgStore_spec h
        exact ⟨hs.1, hs.2.1, hs.2.2.1, hs.2.2.2.1, hs.2.2.2.2.1, Or.inr hs.2.2.2.2.2⟩
    · have hs := setMsgStore_spec h
      exact ⟨hs.1, hs.2.1, hs.2.2.1, hs.2.2.2.1, hs.2.2.2.2.1, Or.inr hs.2.2.2.2.2⟩

/-- Effect of one `IncWithMessage` call on the counters and untouched fields. -/
theorem incWithMessage_spec {s s' : Spinner} {m : Str} (h : IncWithMessage s m = some s') :
    s'.count = s.count ∧ s'.active = s.active ∧ s'.out = s.out ∧ s'.debugOut = s.debugOut ∧
    (s'.msg = s.msg ∨ s'.msg.head? = some ' ') ∧
    s'.completed = (if s.completed ≥ s.count then s.completed else s.completed + 1) := by
  simp only [IncWithMessage] at h
  split at h
  · next hge =>
    simp only [Option.some.injEq] at h
    subst h
    exact ⟨rfl, rfl, rfl, rfl, Or.inl rfl, (if_pos hge).symm⟩
  · next hge =>
    have hs := setMsg_spec h
    exact ⟨hs.2.1, hs.2.2.1, hs.2.2.2.1, hs.2.2.2.2.1, hs.2.2.2.2.2,
      by rw [hs.1, if_neg hge]⟩

/-- Running a sequence of increments from a valid counter state: the total
count is preserved and the completed count saturates at the total. -/
theorem runIncs_spec : ∀ (msgs : List Str) (s s' : Spinner),
    s.completed ≤ s.count → runIncs s msgs = some s' →
    s'.count = s.count ∧ s'.completed = min (s.completed + msgs.length) s.count := by
  intro msgs
  induction msgs with
  | nil =>
    intro s s' hle h
    simp only [runIncs, Option.some.injEq] at h
    subst h
    exact ⟨rfl, by rw [List.length_nil, Nat.cast_zero, add_zero, min_eq_left hle]⟩
  | cons m rest ih =>
    intro s s' hle h
    simp only [runIncs] at h
    cases hstep : IncWithMessage s m with
    | none => rw [hstep] at h; simp at h
    | some s1 =>
      rw [hstep] at h
      simp only [Option.some_bind] at h
      have hspec := incWithMessage_spec hstep
      have hcount : s1.count = s.count := hspec.1
      have hcomp := hspec.2.2.2.2.2
      by_cases hge : s.completed ≥ s.count
      · have heq : s.completed = s.count := le_antisymm hle hge
        have h1 : s1.completed = s.completed := by rw [hcomp, if_pos hge]
        have hle1 : s1.completed ≤ s1.count := by rw [h1, hcount]; exact hle
        have hrest := ih s1 s' hle1 h
        refine ⟨by rw [hrest.1, hcount], ?_⟩
        rw [hrest.2, h1, hcount, heq]
        rw [min_eq_right (le_add_of_nonneg_right (Int.natCast_nonneg _)),
            min_eq_right (le_add_of_nonneg_right (Int.natCast_nonneg _))]
      · have h1 : s1.completed = s.completed + 1 := by rw [hcomp, if_neg hge]
        have hle1 : s1.completed ≤ s1.count := by
          rw [h1, hcount]
          omega
        have hrest := ih s1 s' hle1 h
        refine ⟨by rw [hrest.1, hcount], ?_⟩
        rw [hrest.2, h1, hcount]
        congr 1
        simp only [List.length_cons, Nat.cast_add, Nat.cast_one]
        ring

/-- A sequence of plain `Inc()` calls never panics. -/
theorem incWithMessage_empty_some (s : Spinner) : ∃ s1, IncWithMessage s [] = some s1 := by
  unfold IncWithMessage
  split
  · exact ⟨s, rfl⟩
  · exact ⟨_, rfl⟩

theorem runIncs_all_empty_some : ∀ (msgs : List Str), (∀ m ∈ msgs, m = []) →
    ∀ s : Spinner, (runIncs s msgs).isSome := by
  intro msgs
  induction msgs with
  | nil => intro _ s; simp [runIncs]
  | cons m rest ih =>
    intro hall s
    have hm : m = [] := hall m (List.mem_cons_self m rest)
    subst hm
    obtain ⟨s1, hs1⟩ := incWithMessage_empty_some s
    simp only [runIncs, hs1, Option.some_bind]
    exact ih (fun x hx => hall x (List.mem_cons_of_mem _ hx)) s1

/-- The message field after storing a non-empty message is exactly the padded
message. -/
theorem setMsgStore_msg (s : Spinner) (m2 : Str) (h : m2 ≠ []) :
    (setMsgStore s m2).map (fun t => t.msg) = some (pad m2) := by
  cases m2 with
  | nil => exact absurd rfl h
  | cons c r =>
    simp only [setMsgStore, Option.map_some, pad]
    by_cases hc : c = ' ' <;> simp [hc]

/-- No option touches the message field. -/
theorem applyOpt_msg (s : Spinner) (o : Opt) : (applyOpt s o).msg = s.msg := by
  cases o <;> rfl

/-- A freshly constructed spinner has an empty message. -/
theorem New_msg (opts : List Opt) : (New opts).msg = [] := by
  unfold New
  suffices h : ∀ s : Spinner, (opts.foldl applyOpt s).msg = s.msg by rw [h]; rfl
  induction opts with
  | nil => intro s; rfl
  | cons o rest ih => intro s; rw [List.foldl_cons, ih, applyOpt_msg]

/-- `Stop` never changes the message field. -/
theorem Stop_msg (s : Spinner) : (Stop s).msg = s.msg := by
  simp only [Stop, erase]
  split
  · rfl
  · split_ifs <;> rfl

/-- `Debugf` never changes the message field. -/
theorem Debugf_msg (s : Spinner) (m : Str) : (Debugf s m).msg = s.msg := by
  unfold Debugf
  split <;> rfl

/-- One foreground operation preserves the message invariant. -/
theorem runOp_msgOk {s s' : Spinner} {op : Op} (h : runOp s op = some s') (hs : msgOk s) :
    msgOk s' := by
  cases op with
  | start =>
    simp only [runOp, Start] at h
    split at h
    · simp only [Option.some.injEq] at h; subst h; exact hs
    · rcases (setMsg_spec h).2.2.2.2.2 with e | e
      · unfold msgOk at hs ⊢; rw [e]; exact hs
      · exact Or.inr e
  | stop =>
    simp only [runOp, Option.some.injEq] at h
    subst h
    unfold msgOk at hs ⊢; rw [Stop_msg]; exact hs
  | inc =>
    simp only [runOp, Inc, IncWithMessage] at h
    split at h
    · simp only [Option.some.injEq] at h; subst h; exact hs
    · rcases (setMsg_spec h).2.2.2.2.2 with e | e
      · unfold msgOk at hs ⊢; rw [e]; exact hs
      · exact Or.inr e
  | incWithMessage m =>
    simp only [runOp, IncWithMessage] at h
    split at h
    · simp only [Option.some.injEq] at h; subst h; exact hs
    · rcases (setMsg_spec h).2.2.2.2.2 with e | e
      · unfold msgOk at hs ⊢; rw [e]; exact hs
      · exact Or.inr e
  | debugf m =>
    simp only [runOp, Option.some.injEq] at h
    subst h
    unfold msgOk at hs ⊢; rw [Debugf_msg]; exact hs

/-- Arbitrary operation sequences preserve the message invariant. -/
theorem runOps_msgOk : ∀ (ops : List Op) (s s' : Spinner),
    msgOk s → runOps s ops = some s' → msgOk s' := by
  intro ops
  induction ops with
  | nil =>
    intro s s' hs h
    simp only [runOps, Option.some.injEq] at h
    subst h; exact hs
  | cons op rest ih =>
    intro s s' hs h
    simp only [runOps] at h
    cases hstep : runOp s op with
    | none => rw [hstep] at h; simp at h
    | some s1 =>
      rw [hstep] at h
      simp only [Option.some_bind] at h
      exact ih s1 s' (runOp_msgOk hstep hs) h

/-- The two expansion loops compute identically. -/
theorem findCloseS_eq (src : Str) (st : Nat) : findCloseS src st = findClose src st := rfl

theorem expandLoopS_eq (src : Str) (mapping : Str → Str) :
    ∀ fuel i ed buf, expandLoopS src mapping fuel i ed buf = expandLoop src mapping fuel i ed buf := by
  intro fuel
  induction fuel with
  | zero => intro i ed buf; rfl
  | succ n ih =>
    intro i ed buf
    simp only [expandLoopS, expandLoop, findCloseS_eq, ih]

/-- After `NO_COLOR` was observed at initialization, `SetEnabled` calls leave
the package state fixed. -/
theorem afterSetEnabled_const (es : List Bool) : afterSetEnabled es = initColor true := by
  unfold afterSetEnabled
  suffices h : ∀ st : ColorState, st = initColor true → es.foldl SetEnabled st = initColor true by
    exact h _ rfl
  induction es with
  | nil => intro st h; exact h
  | cons e rest ih =>
    intro st h
    rw [List.foldl_cons]
    apply ih
    rw [h]; rfl

end Lemmas

section Claims

open Textutil Color Spinner

/-- C1: for a spinner with non-negative total count `n` and `completed = 0`,
after any successfully completed sequence of `k` calls to `Inc()` (the empty
message) or `IncWithMessage` the completed count equals `min k n`; in
particular `n` calls reach exactly `n`, further calls leave it unchanged, and
it never exceeds `n`. -/
theorem c1_completed_min (s : Spinner) (n : Int) (hn : 0 ≤ n) (hcount : s.count = n)
    (h0 : s.completed = 0) (msgs : List Str) (s' : Spinner)
    (h : runIncs s msgs = some s') :
    s'.completed = min (msgs.length : Int) n ∧ s'.completed ≤ n := by
  have hle : s.completed ≤ s.count := by rw [h0, hcount]; exact hn
  have hs := runIncs_spec msgs s s' hle h
  constructor
  · rw [hs.2, h0, hcount, zero_add]
  · rw [hs.2, h0, hcount, zero_add]
    exact min_le_right _ _

/-- Witness for C1 at a concrete spinner with total count 2 and three calls. -/
theorem c1_witness : ∃ s', runIncs (New [Opt.withCount 2]) [[], ['a'], []] = some s' ∧
    s'.completed = min (3 : Int) 2 ∧ s'.completed ≤ 2 := by
  cases hrun : runIncs (New [Opt.withCount 2]) [[], ['a'], []] with
  | none => exact absurd hrun (by decide)
  | some s' =>
    have hc := c1_completed_min (New [Opt.withCount 2]) 2 (by decide) (by decide) (by decide)
      [[], ['a'], []] s' hrun
    exact ⟨s', rfl, hc.1, hc.2⟩

/-- C2: the claim that every spinner operation is total fails on the code:
`IncWithMessage("\n")` strips the trailing newline to the empty string and
then indexes `m[0]`, an out-of-range panic (modelled as `none`); the same
happens through `setMsg` directly and through `Start` with a newline start
message. -/
theorem c2_newline_not_total :
    IncWithMessage mk0 ['\n'] = none ∧ setMsg mk0 ['\n'] = none ∧
    Start { mk0 with startMsg := ['\n'] } = none := by decide

/-- C3: for a non-negative truncation threshold and a message that is
non-empty after stripping one trailing newline, `setMsg` stores the first
`maxMsgLen` bytes plus the ellipsis marker when the message is strictly
longer than the threshold, and stores the message untouched (apart from the
leading-space padding) when its length equals the threshold. -/
theorem c3_truncation (s : Spinner) (m : Str) (hmax : 0 ≤ s.maxMsgLen)
    (hm : stripNL m ≠ []) :
    (s.maxMsgLen < ((stripNL m).length : Int) →
      (setMsg s m).map (fun t => t.msg)
        = some (pad ((stripNL m).take s.maxMsgLen.toNat ++ ['.', '.', '.']))) ∧
    (((stripNL m).length : Int) = s.maxMsgLen →
      (setMsg s m).map (fun t => t.msg) = some (pad (stripNL m))) := by
  have hm0 : m ≠ [] := by
    intro e; apply hm; rw [e]; rfl
  constructor
  · intro hlt
    simp only [setMsg]
    rw [if_neg hm0, if_pos hlt, if_neg (by omega)]
    exact setMsgStore_msg _ _ (by simp)
  · intro heq
    simp only [setMsg]
    rw [if_neg hm0, if_neg (by omega)]
    exact setMsgStore_msg _ _ hm

/-- Witness for C3 at the default spinner and an 81-byte message. -/
theorem c3_witness :
    (setMsg mk0 (List.replicate 81 'a')).map (fun t => t.msg)
      = some (pad ((stripNL (List.replicate 81 'a')).take mk0.maxMsgLen.toNat ++ ['.', '.', '.'])) :=
  (c3_truncation mk0 (List.replicate 81 'a') (by decide) (by decide)).1 (by decide)

/-- C4: after any construction and any successfully completed sequence of
foreground operations, the current message is either empty or starts with
exactly one leading space. -/
theorem c4_leading_space (opts : List Opt) (ops : List Op) (s' : Spinner)
    (h : runOps (New opts) ops = some s') :
    s'.msg = [] ∨ s'.msg.head? = some ' ' :=
  runOps_msgOk ops (New opts) s' (Or.inl (New_msg opts)) h

/-- Witness for C4 on a concrete construction and operation sequence. -/
theorem c4_witness : ∃ s',
    runOps (New [Opt.withCount 3, Opt.withStartMessage ['h', 'i']])
      [Op.start, Op.incWithMessage ['a'], Op.stop] = some s' ∧
    (s'.msg = [] ∨ s'.msg.head? = some ' ') := by
  cases hrun : runOps (New [Opt.withCount 3, Opt.withStartMessage ['h', 'i']])
      [Op.start, Op.incWithMessage ['a'], Op.stop] with
  | none => exact absurd hrun (by decide)
  | some s' => exact ⟨s', rfl, c4_leading_space _ _ s' hrun⟩

/-- C5: the misuse branches are silent no-ops that leave the whole state —
including everything ever written to the output and debug sinks — unchanged:
`Start` while active, `Stop` while inactive (also iterated), and
`Inc`/`IncWithMessage` once the completed count has reached the total. -/
theorem c5_noop (s : Spinner) (m : Str) (k : Nat) :
    (s.active = true → Start s = some s) ∧
    (s.active = false → Stop s = s) ∧
    (s.completed ≥ s.count → IncWithMessage s m = some s ∧ Inc s = some s) ∧
    (s.active = false → Stop^[k] s = s) := by
  have hstop : s.active = false → Stop s = s := by
    intro h; simp [Stop, h]
  refine ⟨?_, hstop, ?_, ?_⟩
  · intro h; simp [Start, h]
  · intro h
    constructor
    · unfold IncWithMessage; rw [if_pos h]
    · unfold Inc IncWithMessage; rw [if_pos h]
  · intro h
    induction k with
    | zero => rfl
    | succ n ihn => rw [Function.iterate_succ_apply, hstop h]; exact ihn

/-- Witness for C5 at concrete active, inactive and completed spinners. -/
theorem c5_witness :
    (Start { mk0 with active := true } = some { mk0 with active := true }) ∧
    (Stop mk0 = mk0) ∧
    (IncWithMessage { mk0 with completed := 1 } ['x'] = some { mk0 with completed := 1 } ∧
      Inc { mk0 with completed := 1 } = some { mk0 with completed := 1 }) ∧
    (Stop^[5] mk0 = mk0) :=
  ⟨(c5_noop { mk0 with active := true } ['x'] 5).1 rfl,
   (c5_noop mk0 ['x'] 5).2.1 rfl,
   (c5_noop { mk0 with completed := 1 } ['x'] 5).2.2.1 (by decide),
   (c5_noop mk0 ['x'] 5).2.2.2 rfl⟩

end Claims

section ClaimsB

open Textutil Color Spinner

/-- C6 counterexample: with the call sequence exactly as claimed — construct
with a debug sink, then `IncWithMessage("step1")`, `IncWithMessage("step2")`,
`Stop()` — the spinner was never started, so `Stop` is a no-op and the debug
sink receives nothing at all, not the two claimed lines (moreover the default
total count of 1 makes the second increment a no-op). -/
theorem c6_counterexample :
    (runOps (New [Opt.withDebugWriter])
        [Op.incWithMessage "step1".toList, Op.incWithMessage "step2".toList, Op.stop]).map
      (fun s => s.debugOut) = some [] ∧
    some ([] : List Str) ≠ some ["step1".toList ++ ['\n'], "step2".toList ++ ['\n']] := by
  decide

/-- C6 amended: for a spinner constructed with a debug sink and a total count
of at least 2, and started (with no start message) before the increments, the
sequence `IncWithMessage("step1")`, `IncWithMessage("step2")`, `Stop()` makes
the debug sink receive exactly the two lines `step1` then `step2`, in order,
newline-terminated and without a leading space. -/
theorem c6_amended (c : Int) (hc : 2 ≤ c) :
    (runOps (New [Opt.withDebugWriter, Opt.withCount c])
        [Op.start, Op.incWithMessage "step1".toList, Op.incWithMessage "step2".toList, Op.stop]).map
      (fun s => s.debugOut)
      = some ["step1".toList ++ ['\n'], "step2".toList ++ ['\n']] := by
  have e2 : IncWithMessage
      { mk0 with
        hasDebugw := true
        count := c
        active := true } "step1".toList
      = some { mk0 with
        hasDebugw := true
        count := c
        active := true
        completed := 1
        msg := ' ' :: "step1".toList } := by
    unfold IncWithMessage
    split
    · next hge => exfalso; simp [mk0] at hge; omega
    · rfl
  have e3 : IncWithMessage
      { mk0 with
        hasDebugw := true
        count := c
        active := true
        completed := 1
        msg := ' ' :: "step1".toList } "step2".toList
      = some { mk0 with
        hasDebugw := true
        count := c
        active := true
        completed := 2
        msg := ' ' :: "step2".toList
        debugMsgs := ["step1".toList] } := by
    unfold IncWithMessage
    split
    · next hge => exfalso; simp [mk0] at hge; omega
    · rfl
  show ((IncWithMessage
      { mk0 with
        hasDebugw := true
        count := c
        active := true } "step1".toList).bind
      (fun s1 => runOps s1 [Op.incWithMessage "step2".toList, Op.stop])).map
      (fun s => s.debugOut) = _
  rw [e2]
  show ((IncWithMessage
      { mk0 with
        hasDebugw := true
        count := c
        active := true
        completed := 1
        msg := ' ' :: "step1".toList } "step2".toList).bind
      (fun s1 => runOps s1 [Op.stop])).map (fun s => s.debugOut) = _
  rw [e3]
  rfl

/-- Witness for the amended C6 at total count exactly 2. -/
theorem c6_amended_witness :
    (runOps (New [Opt.withDebugWriter, Opt.withCount 2])
        [Op.start, Op.incWithMessage "step1".toList, Op.incWithMessage "step2".toList, Op.stop]).map
      (fun s => s.debugOut)
      = some ["step1".toList ++ ['\n'], "step2".toList ++ ['\n']] :=
  c6_amended 2 (by decide)

/-- C7: the claim that malformed dollar-brace occurrences are left verbatim
(with all surrounding text reproduced exactly once) fails on the code: on the
input consisting of the byte `a` followed by an unterminated dollar-brace, the
text before the malformed occurrence is emitted twice, because the buffer
append happens before the malformed-syntax check without advancing the `end`
index. Both implementations show the same duplication. -/
theorem c7_malformed_duplication :
    ExpandVariables ['a', '$', '\x7b'] (fun _ => []) = ['a', 'a', '$', '\x7b'] ∧
    ExpandVariablesString ['a', '$', '\x7b'] (fun _ => []) = ['a', 'a', '$', '\x7b'] ∧
    (['a', 'a', '$', '\x7b'] : Str) ≠ ['a', '$', '\x7b'] := by
  decide

/-- C8: the byte-slice and string implementations agree on every input and
every mapping function. -/
theorem c8_expand_agree (src : Str) (mapping : Str → Str) :
    ExpandVariables src mapping = ExpandVariablesString src mapping := by
  unfold ExpandVariables ExpandVariablesString
  rw [expandLoopS_eq]

/-- C9: when `NO_COLOR` was set at package initialization, every subsequent
sequence of `SetEnabled` calls (including enabling) leaves all eight color
functions returning their argument unchanged. -/
theorem c9_no_color_wins (es : List Bool) (s : Str) :
    Black (afterSetEnabled es) s = s ∧ Red (afterSetEnabled es) s = s ∧
    Green (afterSetEnabled es) s = s ∧ Yellow (afterSetEnabled es) s = s ∧
    Blue (afterSetEnabled es) s = s ∧ Magenta (afterSetEnabled es) s = s ∧
    Cyan (afterSetEnabled es) s = s ∧ White (afterSetEnabled es) s = s := by
  rw [afterSetEnabled_const]
  exact ⟨rfl, rfl, rfl, rfl, rfl, rfl, rfl, rfl⟩

/-- C10: any serialization of the two tasks' 1000 `Inc()` calls (every
interleaving is some 1000-element sequence of `Inc()` operations, because
each call holds the exclusive lock for its whole body) on a spinner with
total count 1000 ends with the completed count exactly 1000. -/
theorem c10_concurrent_incs (msgs : List Str) (hlen : msgs.length = 1000)
    (hall : ∀ m ∈ msgs, m = []) :
    (runIncs (New [Opt.withCount 1000]) msgs).map (fun s => s.completed) = some 1000 := by
  have hsome := runIncs_all_empty_some msgs hall (New [Opt.withCount 1000])
  cases hrun : runIncs (New [Opt.withCount 1000]) msgs with
  | none => rw [hrun] at hsome; simp at hsome
  | some s' =>
    have hs := runIncs_spec msgs (New [Opt.withCount 1000]) s' (by decide) hrun
    have hcast : (msgs.length : Int) = 1000 := by rw [hlen]; rfl
    show some s'.completed = some 1000
    rw [hs.2, hcast]
    decide

/-- Witness for C10 at the sequence of 1000 plain `Inc()` calls. -/
theorem c10_witness :
    (runIncs (New [Opt.withCount 1000]) (List.replicate 1000 ([] : Str))).map
      (fun s => s.completed) = some 1000 :=
  c10_concurrent_incs (List.replicate 1000 []) (by rw [List.length_replicate])
    (fun m hm => List.eq_of_mem_replicate hm)

end ClaimsB
